import Mathlib

/-!
Verification of the signal-comparison engine of the spm-potentiation
repository.

The embedding below translates, over exact rationals, the shape
reconciliation code of `src/shape_accomodation.py` and
`src/misc/spm_interface.py`, the filter-artefact correction of
`src/data_preprocessing.py` and `src/tmp/spm_preprocessing.py`, and the
SPM test orchestration and cluster parameterization of
`src/spm_analysis.py`.  2D numpy arrays and pandas DataFrames are
lists of rows; numpy column assignment (including its broadcasting and
error behaviour) is modelled explicitly, and operations that can raise
return `Except`.  The random draws of the column-synthesis step are
passed in as an explicit noise function.
-/

namespace SpmPotentiation

/-- A 2D numeric data array: a list of rows, each a list of rational
entries (numpy float matrices modelled with exact rationals). -/
abbrev Mat : Type := List (List ℚ)

/-- `shape[0]` of an array: its number of rows. -/
def nRows (m : Mat) : Nat := m.length

/-- `shape[1]` of an array: its number of columns, read off the first row
as for a rectangular numpy array. -/
def nCols (m : Mat) : Nat := (m.headD []).length

/-- The entry in row `i`, column `j` (0 outside bounds). -/
def entry (m : Mat) (i j : Nat) : ℚ := (m.getD i []).getD j 0

/-- `m` is a rectangular `r × c` array. -/
def IsRect (m : Mat) (r c : Nat) : Prop :=
  m.length = r ∧ ∀ row ∈ m, row.length = c

instance (m : Mat) (r c : Nat) : Decidable (IsRect m r c) := by
  unfold IsRect; infer_instance

/-- Mean of a list of numbers, as computed by `np.mean` / pandas `mean`
on a nonempty list (0 on the empty list, where numpy reports NaN). -/
def listMean (l : List ℚ) : ℚ := l.sum / l.length

/-- Per-row means: `data.mean(axis=1)`. -/
def rowMeans (m : Mat) : List ℚ := m.map listMean

/-- Column `j` of an array, as obtained by iterating `data.T`. -/
def getCol (m : Mat) (j : Nat) : List ℚ := m.map (fun row => row.getD j 0)

/-- Per-column means of an array: pandas `df.mean()`. -/
def colMeans (m : Mat) : List ℚ :=
  (List.range (nCols m)).map (fun j => listMean (getCol m j))

/-- `np.zeros(shape=(r, c))`. -/
def zeros (r c : Nat) : Mat := List.replicate r (List.replicate c (0 : ℚ))

/-- numpy maximum of the values in a list: `np.max`. -/
def listMax (l : List ℚ) : ℚ := l.foldl max (l.headD 0)

/-- numpy column assignment `m[:, j] = v`: element-wise when `v` has one
entry per row of `m`, broadcast when `v` has a single entry, and an
`IndexError` / broadcast `ValueError` otherwise, modelled as
`Except.error`. -/
def assignCol (m : Mat) (j : Nat) (v : List ℚ) : Except String Mat :=
  if j < nCols m then
    if v.length = m.length then
      .ok (List.zipWith (fun row x => row.set j x) m v)
    else if v.length = 1 then
      .ok (m.map (fun row => row.set j (v.headD 0)))
    else
      .error "could not broadcast"
  else
    .error "index out of bounds"

/-- The synthesized column
`col_avg + 0.1 * np.random.uniform(-np.abs(col_avg), np.abs(col_avg))`
of `src/shape_accomodation.py`, with the random draw for column `j` and
row `i` supplied by `noise j i` (numpy guarantees every draw `u_i`
satisfies `|u_i| ≤ |col_avg_i|`). -/
def synthCol (col_avg : List ℚ) (noise : Nat → Nat → ℚ) (j : Nat) : List ℚ :=
  (List.range col_avg.length).map (fun i => col_avg.getD i 0 + (1/10) * noise j i)

/-- `match_rows` from `src/shape_accomodation.py`: trim the array with
more rows (`data[0:n, :]`) so that row counts agree. -/
def match_rows (pre_data post_data : Mat) (pre_rows post_rows : Nat) :
    Mat × Mat :=
  if pre_rows < post_rows then (pre_data, post_data.take pre_rows)
  else if post_rows < pre_rows then (pre_data.take post_rows, post_data)
  else (pre_data, post_data)

/-- `match_cols` from `src/shape_accomodation.py`: widen the array with
fewer columns by copying its columns into a zero array of the wider
shape and filling the remaining column range with the per-row mean plus
bounded noise.  The zero array is sized from the *passed-in* shape
arguments, exactly as in the source. -/
def match_cols (pre_data post_data : Mat)
    (pre_rows pre_cols post_rows post_cols : Nat)
    (noise : Nat → Nat → ℚ) : Except String (Mat × Mat) :=
  if pre_cols < post_cols then do
    let col_avg := rowMeans pre_data
    let filled ← (List.range (nCols pre_data)).foldlM
        (fun acc i => assignCol acc i (getCol pre_data i))
        (zeros post_rows post_cols)
    let temp_pre_data ← (List.range' pre_cols (post_cols - pre_cols)).foldlM
        (fun acc j => assignCol acc j (synthCol col_avg noise j)) filled
    return (temp_pre_data, post_data)
  else if post_cols < pre_cols then do
    let col_avg := rowMeans post_data
    let filled ← (List.range (nCols post_data)).foldlM
        (fun acc i => assignCol acc i (getCol post_data i))
        (zeros pre_rows pre_cols)
    let temp_post_data ← (List.range' post_cols (pre_cols - post_cols)).foldlM
        (fun acc j => assignCol acc j (synthCol col_avg noise j)) filled
    return (pre_data, temp_post_data)
  else
    return (pre_data, post_data)

/-- `increase_cols` from `src/shape_accomodation.py`: unconditionally
rebuild both arrays with 5 columns, copying the existing columns and
synthesizing the column range `[pre_cols, post_cols)` for the first
array and `[post_cols, pre_cols)` for the second. -/
def increase_cols (pre_data post_data : Mat)
    (pre_rows pre_cols post_rows post_cols : Nat)
    (noiseP noiseQ : Nat → Nat → ℚ) : Except String (Mat × Mat) := do
  let pre_avg := rowMeans pre_data
  let pre_filled ← (List.range (nCols pre_data)).foldlM
      (fun acc i => assignCol acc i (getCol pre_data i))
      (zeros post_rows 5)
  let tmp_pre_data ← (List.range' pre_cols (post_cols - pre_cols)).foldlM
      (fun acc j => assignCol acc j (synthCol pre_avg noiseP j)) pre_filled
  let post_avg := rowMeans post_data
  let post_filled ← (List.range (nCols post_data)).foldlM
      (fun acc i => assignCol acc i (getCol post_data i))
      (zeros pre_rows 5)
  let tmp_post_data ← (List.range' post_cols (pre_cols - post_cols)).foldlM
      (fun acc j => assignCol acc j (synthCol post_avg noiseQ j)) post_filled
  return (tmp_pre_data, tmp_post_data)

/-- `reshape_data` from `src/misc/spm_interface.py`: dispatch on the
original shapes.  Note that the both-mismatched branch passes the
*pre-truncation* shape variables to `match_cols`, and that the final
one-column test also uses the original column counts. -/
def reshape_data (pre_data post_data : Mat)
    (noiseC noiseP noiseQ : Nat → Nat → ℚ) : Except String (Mat × Mat) := do
  let pre_rows := nRows pre_data
  let pre_cols := nCols pre_data
  let post_rows := nRows post_data
  let post_cols := nCols post_data
  let pq ←
    if pre_rows ≠ post_rows ∧ pre_cols = post_cols then
      pure (match_rows pre_data post_data pre_rows post_rows)
    else if pre_rows = post_rows ∧ pre_cols ≠ post_cols then
      match_cols pre_data post_data pre_rows pre_cols post_rows post_cols noiseC
    else if ¬(pre_rows = post_rows ∧ pre_cols = post_cols) then do
      let rowsMatched := match_rows pre_data post_data pre_rows post_rows
      match_cols rowsMatched.1 rowsMatched.2
        pre_rows pre_cols post_rows post_cols noiseC
    else
      pure (pre_data, post_data)
  if pre_cols = 1 ∧ post_cols = 1 then
    increase_cols pq.1 pq.2 pre_rows pre_cols post_rows post_cols noiseP noiseQ
  else
    return pq

/-- The all-zero noise draw (an admissible draw of
`np.random.uniform(-np.abs(a), np.abs(a))`). -/
def zeroNoise : Nat → Nat → ℚ := fun _ _ => 0

/-- `constants.FILTER_ARTEFACT_ROWS_TO_AVERAGE` from `src/constants.py`. -/
def FILTER_ARTEFACT_ROWS_TO_AVERAGE : Nat := 3

/-- `START_ROWS_TO_AVERAGE` from `src/tmp/spm_preprocessing.py`. -/
def START_ROWS_TO_AVERAGE : Nat := 3

/-- `constants.TMG_ROWS_TO_SKIP_FOR_SPM` from `src/constants.py`. -/
def TMG_ROWS_TO_SKIP_FOR_SPM : Nat := 1

/-- pandas `df.head(k).mean().mean()`: the column means of the first `k`
rows, then the mean of those column means. -/
def headMean (m : Mat) (k : Nat) : ℚ := listMean (colMeans (m.take k))

/-- The scalar `np.mean(np.mean(data[0:k, :], axis=1))`: the per-row
means of the first `k` rows, then their mean. -/
def headMeanRows (m : Mat) (k : Nat) : ℚ := listMean (rowMeans (m.take k))

/-- The mean of the head window stated as in the specification: the
scalar mean of every value in the first `k` rows. -/
def scalarHeadMean (m : Mat) (k : Nat) : ℚ := listMean (m.take k).flatten

/-- Subtract the scalar `d` from every entry of the array
(`df - d` / `data -= d`). -/
def subScalar (m : Mat) (d : ℚ) : Mat :=
  m.map (fun row => row.map (fun x => x - d))

/-- `_remove_spm_significance_from_filter_artefact` from
`src/data_preprocessing.py` (window size
`first_n_rows_to_average`, in the source defaulted to
`constants.FILTER_ARTEFACT_ROWS_TO_AVERAGE = 3`). -/
def remove_spm_significance_from_filter_artefact
    (pre_df post_df : Mat) (first_n_rows_to_average : Nat) : Mat × Mat :=
  let pre_mean := headMean pre_df first_n_rows_to_average
  let post_mean := headMean post_df first_n_rows_to_average
  if pre_mean < post_mean then
    (pre_df, subScalar post_df (post_mean - pre_mean))
  else
    (pre_df, post_df)

/-- `fix_false_spm_significance` from `src/tmp/spm_preprocessing.py`.
The subtraction `post_data -= ...` is an in-place numpy operation, so
the second component is also the state of the caller's `post_data`
argument after the call. -/
def fix_false_spm_significance (pre_data post_data : Mat) : Mat × Mat :=
  let pre_mean := headMeanRows pre_data START_ROWS_TO_AVERAGE
  let post_mean := headMeanRows post_data START_ROWS_TO_AVERAGE
  if pre_mean < post_mean then
    (pre_data, subScalar post_data (post_mean - pre_mean))
  else
    (pre_data, post_data)

/-- An spm1d cluster object as consumed by `src/spm_analysis.py`:
endpoints, the stored time grid `_X`, the statistic values `_Z`, the
centroid and the exceedance probability. -/
structure Cluster where
  endpoints : ℚ × ℚ
  X : List ℚ
  Z : List ℚ
  centroid : ℚ × ℚ
  P : ℚ
deriving DecidableEq

/-- The trapezoid-rule loop of `_get_params_of_spm_cluster`
(`src/spm_analysis.py`):
`for n in range(1, N, 1): A += np.abs(0.5*(z[n]+z[n-1]))*(t[n]-t[n-1])`
with `N = len(t)`. -/
def areaAboveX (ts zs : List ℚ) : ℚ :=
  (List.range' 1 (ts.length - 1)).foldl
    (fun a n =>
      a + |(1/2 : ℚ) * (zs.getD n 0 + zs.getD (n - 1) 0)| *
        (ts.getD n 0 - ts.getD (n - 1) 0)) 0

/-- `A_above_threshold = A_above_x - threshold*(t[-1] - t[0])` from
`_get_params_of_spm_cluster`. -/
def areaAboveThreshold (ts zs : List ℚ) (threshold : ℚ) : ℚ :=
  areaAboveX ts zs - threshold * (ts.getD (ts.length - 1) 0 - ts.getD 0 0)

/-- `_get_params_of_spm_cluster` from `src/spm_analysis.py`.  Returns
the ten-entry parameter list in the order of
`constants.SPM_PARAM_NAMES`, together with the state of the cluster
object after the call: `cluster_time = cluster._X` followed by
`cluster_time += time_offset` adds the offset in place to the numpy
array shared with `cluster._X`. -/
def get_params_of_spm_cluster (cluster : Cluster)
    (alpha threshold time_offset : ℚ) : List ℚ × Cluster :=
  let tstart := cluster.endpoints.1 + time_offset
  let tend := cluster.endpoints.2 + time_offset
  let cluster_time := cluster.X.map (fun t => t + time_offset)
  let cluster_spm_t := cluster.Z
  let spm_t_max := listMax cluster_spm_t
  let A_above_x := areaAboveX cluster_time cluster_spm_t
  let A_above_threshold := areaAboveThreshold cluster_time cluster_spm_t threshold
  ([alpha, threshold, cluster.P, tstart, tend,
    cluster.centroid.1 + time_offset, cluster.centroid.2,
    spm_t_max, A_above_threshold, A_above_x],
   { cluster with X := cluster_time })

/-- An spm1d `ti` inference object: significance level, critical
threshold `zstar`, and the cluster report (`None` or a list of
clusters, covering both report representations of the delegated
library). -/
structure TI where
  alpha : ℚ
  zstar : ℚ
  clusters : Option (List Cluster)
deriving DecidableEq

/-- Number of supra-threshold clusters in an inference report. -/
def countClusters : Option (List Cluster) → Nat
  | none => 0
  | some cs => cs.length

/-- `_get_ti_parameters_as_df` from `src/spm_analysis.py`: `None` when
the cluster report is `None`, otherwise one ten-entry parameter column
per cluster (the DataFrame columns, in cluster order). -/
def get_ti_parameters_as_df (ti : TI) (time_offset : ℚ) :
    Option (List (List ℚ)) :=
  match ti.clusters with
  | none => none
  | some clusters =>
      some (clusters.map
        (fun c => (get_params_of_spm_cluster c ti.alpha ti.zstar time_offset).1))

/-- Number of per-cluster parameter records in a parameterizer result. -/
def countRecords : Option (List (List ℚ)) → Nat
  | none => 0
  | some cols => cols.length

/-- A test-statistic continuum: one statistic value per time sample. -/
abbrev Continuum := List ℚ

/-- `_get_spm_t_ti_paired_ttest` from `src/spm_analysis.py`, with the
delegated `spm1d.stats.ttest_paired` + `inference` call abstracted as an
`Except` value.  On success the `(t, ti)` pair is passed through; on any
exception the function prints an error message naming the exception and
returns `(None, None)`.  First component: the returned pair; second
component: the printed log. -/
def get_spm_t_ti_paired_ttest (delegated : Except String (Continuum × TI)) :
    (Option Continuum × Option TI) × List String :=
  match delegated with
  | .ok tti => ((some tti.1, some tti.2), [])
  | .error e => ((none, none), ["Error performing SPM analysis: " ++ e])

/-- Pure model of a sequence of numpy column assignments, used to state
what the `foldlM` loops of `match_cols` / `increase_cols` compute. -/
def setCols (js : List Nat) (v : Nat → List ℚ) (m : Mat) : Mat :=
  js.foldl (fun acc j => List.zipWith (fun row x => row.set j x) acc (v j)) m

/-- Pure model of a sequence of scalar writes into one row. -/
def setRow (js : List Nat) (g : Nat → ℚ) (row : List ℚ) : List ℚ :=
  js.foldl (fun r j => r.set j (g j)) row

section Lemmas

theorem getD_map_range (f : Nat → ℚ) (n i : Nat) (h : i < n) :
    ((List.range n).map f).getD i 0 = f i := by
  rw [List.getD_eq_getElem _ _ (by simpa using h)]
  simp

theorem getD_map_rows (f : List ℚ → ℚ) (l : Mat) (i : Nat) (h : i < l.length) :
    (l.map f).getD i 0 = f (l.getD i []) := by
  rw [List.getD_eq_getElem _ _ (by simpa using h), List.getD_eq_getElem _ _ h]
  simp

theorem getD_map_entry (f : ℚ → ℚ) (l : List ℚ) (i : Nat) (h : i < l.length) :
    (l.map f).getD i 0 = f (l.getD i 0) := by
  rw [List.getD_eq_getElem _ _ (by simpa using h), List.getD_eq_getElem _ _ h]
  simp

theorem getD_set_self (r : List ℚ) (j : Nat) (x : ℚ) (h : j < r.length) :
    (r.set j x).getD j 0 = x := by
  rw [List.getD_eq_getElem _ _ (by simpa using h)]
  simp

theorem getD_set_ne (r : List ℚ) (i j : Nat) (x : ℚ) (h : i ≠ j) :
    (r.set i x).getD j 0 = r.getD j 0 := by
  by_cases hj : j < r.length
  · rw [List.getD_eq_getElem _ _ (by simpa using hj), List.getD_eq_getElem _ _ hj]
    exact List.getElem_set_ne h _
  · rw [List.getD_eq_default _ _ (by simpa using Nat.le_of_not_lt hj),
      List.getD_eq_default _ _ (Nat.le_of_not_lt hj)]

theorem getD_replicate_lt (n i : Nat) (x : ℚ) (h : i < n) :
    (List.replicate n x).getD i 0 = x := by
  rw [List.getD_eq_getElem _ _ (by simpa using h)]
  simp

theorem setRow_length (js : List Nat) (g : Nat → ℚ) (row : List ℚ) :
    (setRow js g row).length = row.length := by
  induction js generalizing row with
  | nil => rfl
  | cons j rest ih => simpa [setRow] using ih (row.set j (g j))

theorem setRow_getD_of_not_mem (js : List Nat) (g : Nat → ℚ) (row : List ℚ)
    (j : Nat) (h : j ∉ js) :
    (setRow js g row).getD j 0 = row.getD j 0 := by
  induction js generalizing row with
  | nil => rfl
  | cons a rest ih =>
    have ha : a ≠ j := fun e => h (e ▸ List.mem_cons_self a rest)
    have hrest : j ∉ rest := fun e => h (List.mem_cons_of_mem a e)
    show (setRow rest g (row.set a (g a))).getD j 0 = row.getD j 0
    rw [ih (row.set a (g a)) hrest, getD_set_ne row a j _ ha]

theorem setRow_getD_of_mem (js : List Nat) (g : Nat → ℚ) (row : List ℚ)
    (j : Nat) (hnd : js.Nodup) (hmem : j ∈ js) (hj : j < row.length) :
    (setRow js g row).getD j 0 = g j := by
  induction js generalizing row with
  | nil => cases hmem
  | cons a rest ih =>
    rcases List.mem_cons.mp hmem with rfl | hm
    · have hnr : j ∉ rest := (List.nodup_cons.mp hnd).1
      show (setRow rest g (row.set j (g j))).getD j 0 = g j
      rw [setRow_getD_of_not_mem rest g _ j hnr, getD_set_self row j (g j) hj]
    · have hlt : j < (row.set a (g a)).length := by simpa using hj
      show (setRow rest g (row.set a (g a))).getD j 0 = g j
      exact ih (row.set a (g a)) (List.nodup_cons.mp hnd).2 hm hlt

theorem zipWith_set_getD (m : Mat) (v : List ℚ) (j i : Nat)
    (hlen : v.length = m.length) (hi : i < m.length) :
    (List.zipWith (fun row x => row.set j x) m v).getD i [] =
      (m.getD i []).set j (v.getD i 0) := by
  induction m generalizing v i with
  | nil => cases hi
  | cons r m' ih =>
    match v with
    | [] => simp at hlen
    | x :: v' =>
      match i with
      | 0 => simp
      | Nat.succ i' =>
        have hlen' : v'.length = m'.length := by simpa using hlen
        have hi' : i' < m'.length := by simpa using hi
        simpa using ih v' i' hlen' hi'

theorem nCols_of_rect (m : Mat) (r c : Nat) (h : IsRect m r c) (hr : 1 ≤ r) :
    nCols m = c := by
  match m with
  | [] =>
    have : (0 : Nat) = r := h.1
    omega
  | row :: t =>
    exact h.2 row (List.mem_cons_self row t)

theorem assignCol_ok (m : Mat) (j : Nat) (v : List ℚ)
    (hj : j < nCols m) (hv : v.length = m.length) :
    assignCol m j v =
      Except.ok (List.zipWith (fun row x => row.set j x) m v) := by
  unfold assignCol
  rw [if_pos hj, if_pos hv]

theorem nCols_zipWith_set (m : Mat) (v : List ℚ) (j : Nat)
    (hv : v.length = m.length) (hm : m ≠ []) :
    nCols (List.zipWith (fun row x => row.set j x) m v) = nCols m := by
  match m, v with
  | [], _ => exact absurd rfl hm
  | r :: t, [] => simp at hv
  | r :: t, x :: w => simp [nCols]

theorem foldlM_assignCol_ok (js : List Nat) (v : Nat → List ℚ) (m : Mat)
    (hv : ∀ j ∈ js, (v j).length = m.length)
    (hj : ∀ j ∈ js, j < nCols m) :
    js.foldlM (fun acc j => assignCol acc j (v j)) m = Except.ok (setCols js v m)
      ∧ (setCols js v m).length = m.length
      ∧ nCols (setCols js v m) = nCols m
      ∧ ∀ i, i < m.length →
          (setCols js v m).getD i [] =
            setRow js (fun j => (v j).getD i 0) (m.getD i []) := by
  induction js generalizing m with
  | nil =>
    refine ⟨rfl, rfl, rfl, fun i _ => rfl⟩
  | cons j rest ih =>
    have hj0 : j < nCols m := hj j (List.mem_cons_self j rest)
    have hv0 : (v j).length = m.length := hv j (List.mem_cons_self j rest)
    set m₂ := List.zipWith (fun row x => row.set j x) m (v j) with hm₂
    have hlen₂ : m₂.length = m.length := by
      rw [hm₂, List.length_zipWith, hv0, Nat.min_self]
    have hmne : m ≠ [] := by
      intro e
      rw [e] at hj0
      simp [nCols] at hj0
    have hcols₂ : nCols m₂ = nCols m := nCols_zipWith_set m (v j) j hv0 hmne
    have step : (j :: rest).foldlM (fun acc j' => assignCol acc j' (v j')) m =
        rest.foldlM (fun acc j' => assignCol acc j' (v j')) m₂ := by
      rw [List.foldlM_cons, assignCol_ok m j (v j) hj0 hv0]
      rfl
    have hv' : ∀ j' ∈ rest, (v j').length = m₂.length := by
      intro j' hj'
      rw [hlen₂]
      exact hv j' (List.mem_cons_of_mem j hj')
    have hj' : ∀ j' ∈ rest, j' < nCols m₂ := by
      intro j' hmem
      rw [hcols₂]
      exact hj j' (List.mem_cons_of_mem j hmem)
    obtain ⟨h1, h2, h3, h4⟩ := ih m₂ hv' hj'
    have hsc : setCols (j :: rest) v m = setCols rest v m₂ := rfl
    refine ⟨?_, ?_, ?_, ?_⟩
    · rw [step, hsc]; exact h1
    · rw [hsc, h2, hlen₂]
    · rw [hsc, h3, hcols₂]
    · intro i hi
      have hi₂ : i < m₂.length := by omega
      rw [hsc, h4 i hi₂]
      show setRow rest (fun j' => (v j').getD i 0) (m₂.getD i []) =
        setRow rest (fun j' => (v j').getD i 0)
          ((m.getD i []).set j ((v j).getD i 0))
      rw [zipWith_set_getD m (v j) j i hv0 hi]

theorem okBind {α β : Type} (a : α) (f : α → Except String β) :
    (Except.ok a : Except String α) >>= f = f a := rfl

theorem zeros_length (r c : Nat) : (zeros r c).length = r :=
  List.length_replicate r _

theorem nCols_zeros (r c : Nat) (hr : 1 ≤ r) : nCols (zeros r c) = c := by
  match r, hr with
  | Nat.succ r', _ => simp [zeros, nCols, List.replicate_succ]

theorem zeros_getD (r c i : Nat) (hi : i < r) :
    (zeros r c).getD i [] = List.replicate c 0 := by
  rw [List.getD_eq_getElem _ _ (by simpa [zeros] using hi)]
  simp [zeros]

theorem length_synthCol (col_avg : List ℚ) (noise : Nat → Nat → ℚ) (j : Nat) :
    (synthCol col_avg noise j).length = col_avg.length := by
  simp [synthCol]

theorem length_rowMeans (m : Mat) : (rowMeans m).length = m.length := by
  simp [rowMeans]

theorem length_getCol (m : Mat) (j : Nat) : (getCol m j).length = m.length := by
  simp [getCol]

/-- What the two column-filling loops shared by `match_cols` and
`increase_cols` compute on a zero target of shape `R × C`, when the
source array is a rectangular `R × c` array with `c ≤ C`: the first
`c` columns hold the source columns, the synthesized column range
`[c, C)` holds the per-row means plus scaled noise. -/
theorem widen_core (src : Mat) (R c C : Nat) (noise : Nat → Nat → ℚ)
    (hsrc : IsRect src R c) (hR : 1 ≤ R) (hcC : c ≤ C) :
    ∃ filled w,
      (List.range (nCols src)).foldlM
          (fun acc i => assignCol acc i (getCol src i)) (zeros R C) =
        Except.ok filled
      ∧ (List.range' c (C - c)).foldlM
          (fun acc j => assignCol acc j (synthCol (rowMeans src) noise j)) filled =
        Except.ok w
      ∧ IsRect w R C
      ∧ (∀ i j, i < R → j < c → entry w i j = entry src i j)
      ∧ (∀ i j, i < R → c ≤ j → j < C →
          entry w i j = listMean (src.getD i []) + (1/10) * noise j i) := by
  have hlen : src.length = R := hsrc.1
  have hnc : nCols src = c := nCols_of_rect src R c hsrc hR
  have hz : (zeros R C).length = R := zeros_length R C
  have hzc : nCols (zeros R C) = C := nCols_zeros R C hR
  have hv1 : ∀ j ∈ List.range c, (getCol src j).length = (zeros R C).length := by
    intro j _
    rw [length_getCol, hlen, hz]
  have hj1 : ∀ j ∈ List.range c, j < nCols (zeros R C) := by
    intro j hj
    rw [hzc]
    exact lt_of_lt_of_le (List.mem_range.mp hj) hcC
  obtain ⟨e1, l1, c1, p1⟩ :=
    foldlM_assignCol_ok (List.range c) (fun i => getCol src i) (zeros R C) hv1 hj1
  set filled := setCols (List.range c) (fun i => getCol src i) (zeros R C) with hf
  have hv2 : ∀ j ∈ List.range' c (C - c),
      (synthCol (rowMeans src) noise j).length = filled.length := by
    intro j _
    rw [length_synthCol, length_rowMeans, hlen, l1, hz]
  have hj2 : ∀ j ∈ List.range' c (C - c), j < nCols filled := by
    intro j hj
    rw [c1, hzc]
    have := (List.mem_range'_1.mp hj).2
    omega
  obtain ⟨e2, l2, c2, p2⟩ :=
    foldlM_assignCol_ok (List.range' c (C - c))
      (fun j => synthCol (rowMeans src) noise j) filled hv2 hj2
  set w := setCols (List.range' c (C - c))
    (fun j => synthCol (rowMeans src) noise j) filled with hw
  have hwlen : w.length = R := by rw [l2, l1, hz]
  have hrowlen : ∀ i, i < R → (w.getD i []).length = C := by
    intro i hi
    have hiz : i < (zeros R C).length := by omega
    have hif : i < filled.length := by omega
    rw [p2 i hif, setRow_length, p1 i hiz, setRow_length,
      zeros_getD R C i hi, List.length_replicate]
  have hrowval : ∀ i, i < R → w.getD i [] =
      setRow (List.range' c (C - c))
        (fun j => (synthCol (rowMeans src) noise j).getD i 0)
        (setRow (List.range c) (fun j => (getCol src j).getD i 0)
          (List.replicate C 0)) := by
    intro i hi
    have hiz : i < (zeros R C).length := by omega
    have hif : i < filled.length := by omega
    rw [p2 i hif, p1 i hiz, zeros_getD R C i hi]
  refine ⟨filled, w, by rw [hnc]; exact e1, e2, ⟨hwlen, ?_⟩, ?_, ?_⟩
  · intro row hrow
    obtain ⟨i, hi, hget⟩ := List.mem_iff_getElem.mp hrow
    have hiR : i < R := by omega
    have : row = w.getD i [] := by
      rw [List.getD_eq_getElem _ _ hi, hget]
    rw [this]
    exact hrowlen i hiR
  · intro i j hi hj
    have hnotmem : j ∉ List.range' c (C - c) := by
      intro hmem
      have := (List.mem_range'_1.mp hmem).1
      omega
    have hmem : j ∈ List.range c := List.mem_range.mpr hj
    have hjlt : j < (List.replicate C (0:ℚ)).length := by
      rw [List.length_replicate]
      omega
    rw [entry, hrowval i hi, setRow_getD_of_not_mem _ _ _ _ hnotmem,
      setRow_getD_of_mem _ _ _ _ (List.nodup_range c) hmem hjlt]
    show (getCol src j).getD i 0 = entry src i j
    rw [getCol, getD_map_rows (fun row => row.getD j 0) src i (by omega)]
    rfl
  · intro i j hi hjc hjC
    have hmem : j ∈ List.range' c (C - c) := by
      rw [List.mem_range'_1]
      omega
    have hjlt : j < (setRow (List.range c)
        (fun j => (getCol src j).getD i 0) (List.replicate C 0)).length := by
      rw [setRow_length, List.length_replicate]
      omega
    rw [entry, hrowval i hi,
      setRow_getD_of_mem _ _ _ _ (List.nodup_range' c (C - c)) hmem hjlt]
    show (synthCol (rowMeans src) noise j).getD i 0 =
      listMean (src.getD i []) + (1/10) * noise j i
    have hiav : i < (rowMeans src).length := by
      rw [length_rowMeans]
      omega
    rw [synthCol, getD_map_range _ _ _ (by simpa [length_rowMeans, hlen] using hi),
      rowMeans, getD_map_rows listMean src i (by omega)]

/-- What the column-copying loop alone computes on a zero target of shape
`R × C`: the first `c` columns hold the source columns and every further
column is still identically zero. -/
theorem fill_core (src : Mat) (R c C : Nat)
    (hsrc : IsRect src R c) (hR : 1 ≤ R) (hcC : c ≤ C) :
    ∃ filled,
      (List.range (nCols src)).foldlM
          (fun acc i => assignCol acc i (getCol src i)) (zeros R C) =
        Except.ok filled
      ∧ IsRect filled R C
      ∧ (∀ i j, i < R → j < c → entry filled i j = entry src i j)
      ∧ (∀ i j, i < R → c ≤ j → j < C → entry filled i j = 0) := by
  have hlen : src.length = R := hsrc.1
  have hnc : nCols src = c := nCols_of_rect src R c hsrc hR
  have hz : (zeros R C).length = R := zeros_length R C
  have hzc : nCols (zeros R C) = C := nCols_zeros R C hR
  have hv1 : ∀ j ∈ List.range c, (getCol src j).length = (zeros R C).length := by
    intro j _
    rw [length_getCol, hlen, hz]
  have hj1 : ∀ j ∈ List.range c, j < nCols (zeros R C) := by
    intro j hj
    rw [hzc]
    exact lt_of_lt_of_le (List.mem_range.mp hj) hcC
  obtain ⟨e1, l1, c1, p1⟩ :=
    foldlM_assignCol_ok (List.range c) (fun i => getCol src i) (zeros R C) hv1 hj1
  set filled := setCols (List.range c) (fun i => getCol src i) (zeros R C) with hf
  have hrowval : ∀ i, i < R → filled.getD i [] =
      setRow (List.range c) (fun j => (getCol src j).getD i 0)
        (List.replicate C 0) := by
    intro i hi
    have hiz : i < (zeros R C).length := by omega
    rw [p1 i hiz, zeros_getD R C i hi]
  refine ⟨filled, by rw [hnc]; exact e1, ⟨by rw [l1, hz], ?_⟩, ?_, ?_⟩
  · intro row hrow
    obtain ⟨i, hi, hget⟩ := List.mem_iff_getElem.mp hrow
    have hiR : i < R := by omega
    have : row = filled.getD i [] := by
      rw [List.getD_eq_getElem _ _ hi, hget]
    rw [this, hrowval i hiR, setRow_length, List.length_replicate]
  · intro i j hi hj
    have hmem : j ∈ List.range c := List.mem_range.mpr hj
    have hjlt : j < (List.replicate C (0:ℚ)).length := by
      rw [List.length_replicate]
      omega
    rw [entry, hrowval i hi,
      setRow_getD_of_mem _ _ _ _ (List.nodup_range c) hmem hjlt]
    show (getCol src j).getD i 0 = entry src i j
    rw [getCol, getD_map_rows (fun row => row.getD j 0) src i (by omega)]
    rfl
  · intro i j hi hjc hjC
    have hnotmem : j ∉ List.range c := by
      intro hmem
      have := List.mem_range.mp hmem
      omega
    rw [entry, hrowval i hi, setRow_getD_of_not_mem _ _ _ _ hnotmem,
      getD_replicate_lt C j 0 hjC]

/-- `match_cols` when the post (comparison) array is the narrower one and
all shape arguments are consistent: the pre array is returned untouched
and the post array is widened column by column. -/
theorem match_cols_widen_post (pre post : Mat) (R c C : Nat)
    (noise : Nat → Nat → ℚ)
    (hpre : IsRect pre R C) (hpost : IsRect post R c)
    (hR : 1 ≤ R) (hcC : c < C) :
    ∃ w, match_cols pre post R C R c noise = Except.ok (pre, w)
      ∧ IsRect w R C
      ∧ (∀ i j, i < R → j < c → entry w i j = entry post i j)
      ∧ (∀ i j, i < R → c ≤ j → j < C →
          entry w i j = listMean (post.getD i []) + (1/10) * noise j i) := by
  obtain ⟨filled, w, e1, e2, hrect, hcopy, hsynth⟩ :=
    widen_core post R c C noise hpost hR (Nat.le_of_lt hcC)
  refine ⟨w, ?_, hrect, hcopy, hsynth⟩
  unfold match_cols
  rw [if_neg (by omega), if_pos hcC]
  show ((List.range (nCols post)).foldlM
      (fun acc i => assignCol acc i (getCol post i)) (zeros R C) >>=
    fun filled =>
      (List.range' c (C - c)).foldlM
          (fun acc j => assignCol acc j (synthCol (rowMeans post) noise j))
          filled >>=
        fun temp => pure (pre, temp)) = Except.ok (pre, w)
  rw [e1, okBind, e2, okBind]
  rfl

/-- `match_cols` when the pre (baseline) array is the narrower one. -/
theorem match_cols_widen_pre (pre post : Mat) (R c C : Nat)
    (noise : Nat → Nat → ℚ)
    (hpre : IsRect pre R c) (hpost : IsRect post R C)
    (hR : 1 ≤ R) (hcC : c < C) :
    ∃ w, match_cols pre post R c R C noise = Except.ok (w, post)
      ∧ IsRect w R C
      ∧ (∀ i j, i < R → j < c → entry w i j = entry pre i j)
      ∧ (∀ i j, i < R → c ≤ j → j < C →
          entry w i j = listMean (pre.getD i []) + (1/10) * noise j i) := by
  obtain ⟨filled, w, e1, e2, hrect, hcopy, hsynth⟩ :=
    widen_core pre R c C noise hpre hR (Nat.le_of_lt hcC)
  refine ⟨w, ?_, hrect, hcopy, hsynth⟩
  unfold match_cols
  rw [if_pos hcC]
  show ((List.range (nCols pre)).foldlM
      (fun acc i => assignCol acc i (getCol pre i)) (zeros R C) >>=
    fun filled =>
      (List.range' c (C - c)).foldlM
          (fun acc j => assignCol acc j (synthCol (rowMeans pre) noise j))
          filled >>=
        fun temp => pure (temp, post)) = Except.ok (w, post)
  rw [e1, okBind, e2, okBind]
  rfl

/-- `increase_cols` on two one-column arrays with `R` rows each: both
outputs are `R × 5`, column 0 copies the input and columns 1–4 stay
zero, because the synthesis loop range `range(1, 1)` is empty. -/
theorem increase_cols_one_one (pre post : Mat) (R : Nat)
    (noiseP noiseQ : Nat → Nat → ℚ)
    (hpre : IsRect pre R 1) (hpost : IsRect post R 1) (hR : 1 ≤ R) :
    ∃ p q, increase_cols pre post R 1 R 1 noiseP noiseQ = Except.ok (p, q)
      ∧ IsRect p R 5 ∧ IsRect q R 5
      ∧ (∀ i, i < R → entry p i 0 = entry pre i 0 ∧ entry q i 0 = entry post i 0)
      ∧ (∀ i j, i < R → 1 ≤ j → j < 5 → entry p i j = 0 ∧ entry q i j = 0) := by
  obtain ⟨p, ep, hprect, hpcopy, hpzero⟩ :=
    fill_core pre R 1 5 hpre hR (by omega)
  obtain ⟨q, eq', hqrect, hqcopy, hqzero⟩ :=
    fill_core post R 1 5 hpost hR (by omega)
  refine ⟨p, q, ?_, hprect, hqrect,
    fun i hi => ⟨hpcopy i 0 hi (by omega), hqcopy i 0 hi (by omega)⟩,
    fun i j hi h1 h5 => ⟨hpzero i j hi h1 h5, hqzero i j hi h1 h5⟩⟩
  unfold increase_cols
  show ((List.range (nCols pre)).foldlM
      (fun acc i => assignCol acc i (getCol pre i)) (zeros R 5) >>=
    fun pre_filled =>
      (List.range' 1 (1 - 1)).foldlM
          (fun acc j => assignCol acc j (synthCol (rowMeans pre) noiseP j))
          pre_filled >>=
        fun tmp_pre =>
          ((List.range (nCols post)).foldlM
              (fun acc i => assignCol acc i (getCol post i)) (zeros R 5) >>=
            fun post_filled =>
              (List.range' 1 (1 - 1)).foldlM
                  (fun acc j =>
                    assignCol acc j (synthCol (rowMeans post) noiseQ j))
                  post_filled >>=
                fun tmp_post => pure (tmp_pre, tmp_post))) = Except.ok (p, q)
  rw [ep, okBind]
  show ((List.range (nCols post)).foldlM
      (fun acc i => assignCol acc i (getCol post i)) (zeros R 5) >>=
    fun post_filled => pure (p, post_filled)) = Except.ok (p, q)
  rw [eq', okBind]
  rfl

/-- `reshape_data` on two arrays that already have equal row and column
counts, with column count not 1: nothing happens. -/
theorem reshape_data_noop (pre post : Mat) (nC nP nQ : Nat → Nat → ℚ)
    (h1 : nRows pre = nRows post) (h2 : nCols pre = nCols post)
    (h3 : nCols pre ≠ 1) :
    reshape_data pre post nC nP nQ = Except.ok (pre, post) := by
  unfold reshape_data
  rw [if_neg (fun h => h.1 h1), if_neg (fun h => h.2 h2),
    if_neg (not_not_intro ⟨h1, h2⟩)]
  show (if nCols pre = 1 ∧ nCols post = 1 then
      increase_cols pre post (nRows pre) (nCols pre) (nRows post) (nCols post)
        nP nQ
    else pure (pre, post)) = Except.ok (pre, post)
  rw [if_neg (fun h => h3 h.1)]
  rfl

/-- `reshape_data` with equal row counts, different column counts and not
both column counts 1 reduces to `match_cols` with consistent shape
arguments. -/
theorem reshape_data_to_match_cols (pre post : Mat) (nC nP nQ : Nat → Nat → ℚ)
    (h1 : nRows pre = nRows post) (h2 : nCols pre ≠ nCols post)
    (h3 : ¬(nCols pre = 1 ∧ nCols post = 1)) :
    reshape_data pre post nC nP nQ =
      match_cols pre post (nRows pre) (nCols pre) (nRows post) (nCols post) nC := by
  unfold reshape_data
  rw [if_neg (fun h => h.1 h1), if_pos ⟨h1, h2⟩]
  simp only [if_neg h3, bind_pure]

/-- `reshape_data` on two one-column arrays with equal row counts reduces
to the fixed-width `increase_cols` path. -/
theorem reshape_data_to_increase_cols (pre post : Mat) (nC nP nQ : Nat → Nat → ℚ)
    (h1 : nRows pre = nRows post) (h2 : nCols pre = 1) (h3 : nCols post = 1) :
    reshape_data pre post nC nP nQ =
      increase_cols pre post (nRows pre) 1 (nRows post) 1 nP nQ := by
  unfold reshape_data
  rw [if_neg (fun h => h.1 h1), if_neg (fun h => h.2 (h2.trans h3.symm)),
    if_neg (not_not_intro ⟨h1, h2.trans h3.symm⟩)]
  show (if nCols pre = 1 ∧ nCols post = 1 then
      increase_cols pre post (nRows pre) (nCols pre) (nRows post) (nCols post)
        nP nQ
    else pure (pre, post)) =
    increase_cols pre post (nRows pre) 1 (nRows post) 1 nP nQ
  rw [if_pos ⟨h2, h3⟩, h2, h3]

theorem sum_map_sub (l : List ℚ) (d : ℚ) :
    (l.map (fun x => x - d)).sum = l.sum - l.length * d := by
  induction l with
  | nil => simp
  | cons a t ih =>
    simp only [List.map_cons, List.sum_cons, ih, List.length_cons]
    push_cast
    ring

theorem listMean_map_sub (l : List ℚ) (d : ℚ) (h : l ≠ []) :
    listMean (l.map (fun x => x - d)) = listMean l - d := by
  have hn : (l.length : ℚ) ≠ 0 := by
    have := List.length_pos.mpr h
    positivity
  unfold listMean
  rw [List.length_map, sum_map_sub]
  field_simp

theorem sum_getD_range (l : List ℚ) :
    ∑ j ∈ Finset.range l.length, l.getD j 0 = l.sum := by
  induction l with
  | nil => simp
  | cons a t ih =>
    rw [List.length_cons, Finset.sum_range_succ']
    simp only [List.getD_cons_succ, List.getD_cons_zero, ih, List.sum_cons]
    ring

theorem sum_colSums (B : Mat) (C : Nat) (h : ∀ r ∈ B, r.length = C) :
    ∑ j ∈ Finset.range C, (B.map (fun r => r.getD j 0)).sum =
      (B.map List.sum).sum := by
  induction B with
  | nil => simp
  | cons r t ih =>
    simp only [List.map_cons, List.sum_cons]
    rw [Finset.sum_add_distrib,
      ih (fun r hr => h r (List.mem_cons_of_mem _ hr))]
    congr 1
    rw [← h r (List.mem_cons_self r t), sum_getD_range]

theorem map_length_sum (B : Mat) (C : Nat) (h : ∀ r ∈ B, r.length = C) :
    (B.map List.length).sum = B.length * C := by
  induction B with
  | nil => simp
  | cons r t ih =>
    simp only [List.map_cons, List.sum_cons, List.length_cons]
    rw [ih (fun r hr => h r (List.mem_cons_of_mem _ hr)),
      h r (List.mem_cons_self r t)]
    ring

theorem list_map_range_sum (f : Nat → ℚ) (n : Nat) :
    ((List.range n).map f).sum = ∑ j ∈ Finset.range n, f j := by
  induction n with
  | zero => simp
  | succ n ih =>
    rw [List.range_succ, List.map_append, List.sum_append,
      Finset.sum_range_succ, ih]
    simp

theorem headMean_eq_scalarHeadMean (m : Mat) (R C k : Nat)
    (hm : IsRect m R C) (hk : 1 ≤ k) (hkR : k ≤ R) (hC : 1 ≤ C) :
    headMean m k = scalarHeadMean m k := by
  set B := m.take k with hB
  have hBlen : B.length = k := by
    rw [hB, List.length_take, hm.1]
    omega
  have hBrows : ∀ r ∈ B, r.length = C :=
    fun r hr => hm.2 r (List.take_subset k m hr)
  have hBC : nCols B = C := nCols_of_rect B k C ⟨hBlen, hBrows⟩ hk
  have hkq : (k : ℚ) ≠ 0 := by positivity
  have hCq : (C : ℚ) ≠ 0 := by positivity
  show listMean (colMeans B) = listMean B.flatten
  have hcm : colMeans B =
      (List.range C).map (fun j => (B.map (fun r => r.getD j 0)).sum / k) := by
    rw [colMeans, hBC]
    apply List.map_congr_left
    intro j _
    rw [listMean, getCol, List.length_map, hBlen]
  rw [hcm, listMean, List.length_map, List.length_range, list_map_range_sum,
    ← Finset.sum_div, sum_colSums B C hBrows]
  rw [listMean, List.sum_flatten, List.length_flatten,
    map_length_sum B C hBrows, hBlen]
  rw [div_div]
  push_cast
  ring_nf

theorem nCols_subScalar (m : Mat) (d : ℚ) : nCols (subScalar m d) = nCols m := by
  cases m with
  | nil => rfl
  | cons r t => simp [subScalar, nCols]

theorem take_subScalar (m : Mat) (d : ℚ) (k : Nat) :
    (subScalar m d).take k = subScalar (m.take k) d := by
  simp [subScalar, List.map_take]

theorem getCol_subScalar (B : Mat) (d : ℚ) (j C : Nat)
    (h : ∀ r ∈ B, r.length = C) (hj : j < C) :
    getCol (subScalar B d) j = (getCol B j).map (fun x => x - d) := by
  unfold subScalar getCol
  rw [List.map_map, List.map_map]
  apply List.map_congr_left
  intro r hr
  show (r.map (fun x => x - d)).getD j 0 = r.getD j 0 - d
  rw [getD_map_entry (fun x => x - d) r j (by rw [h r hr]; omega)]

theorem colMeans_subScalar (B : Mat) (d : ℚ) (kk C : Nat)
    (hrect : IsRect B kk C) (hk : 1 ≤ kk) :
    colMeans (subScalar B d) = (colMeans B).map (fun x => x - d) := by
  unfold colMeans
  rw [nCols_subScalar, List.map_map]
  apply List.map_congr_left
  intro j hj
  have hjC : j < C := by
    have := List.mem_range.mp hj
    rwa [nCols_of_rect B kk C hrect hk] at this
  show listMean (getCol (subScalar B d) j) = listMean (getCol B j) - d
  rw [getCol_subScalar B d j C hrect.2 hjC,
    listMean_map_sub _ _ (by
      have : (getCol B j).length = kk := by rw [length_getCol, hrect.1]
      intro e
      rw [e] at this
      simp at this
      omega)]

theorem headMean_subScalar (post : Mat) (d : ℚ) (R C k : Nat)
    (hrect : IsRect post R C) (hk : 1 ≤ k) (hkR : k ≤ R) (hC : 1 ≤ C) :
    headMean (subScalar post d) k = headMean post k - d := by
  have hBlen : (post.take k).length = k := by
    rw [List.length_take, hrect.1]
    omega
  have hBrect : IsRect (post.take k) k C :=
    ⟨hBlen, fun r hr => hrect.2 r (List.take_subset k post hr)⟩
  unfold headMean
  rw [take_subScalar, colMeans_subScalar _ d k C hBrect hk,
    listMean_map_sub _ _ (by
      have : (colMeans (post.take k)).length = C := by
        rw [colMeans, List.length_map, List.length_range,
          nCols_of_rect _ k C hBrect hk]
      intro e
      rw [e] at this
      simp at this
      omega)]

theorem foldl_add_eq_sum (f : Nat → ℚ) (l : List Nat) (a : ℚ) :
    l.foldl (fun acc n => acc + f n) a = a + (l.map f).sum := by
  induction l generalizing a with
  | nil => simp
  | cons j rest ih =>
    rw [List.foldl_cons, ih, List.map_cons, List.sum_cons]
    ring

theorem areaAboveX_eq_sum (ts zs : List ℚ) :
    areaAboveX ts zs = ∑ k ∈ Finset.range (ts.length - 1),
      |(1/2 : ℚ) * (zs.getD (k+1) 0 + zs.getD k 0)| *
        (ts.getD (k+1) 0 - ts.getD k 0) := by
  unfold areaAboveX
  rw [foldl_add_eq_sum, zero_add, List.range'_eq_map_range, List.map_map,
    list_map_range_sum]
  apply Finset.sum_congr rfl
  intro k _
  show |(1/2 : ℚ) * (zs.getD (1+k) 0 + zs.getD (1+k-1) 0)| *
      (ts.getD (1+k) 0 - ts.getD (1+k-1) 0) = _
  rw [Nat.add_comm 1 k, Nat.add_sub_cancel]

end Lemmas

section Claims

/-- C1: the claim states that reconciliation makes the two shapes equal
for every valid input pair, with row truncation first and column
synthesis second when both dimensions differ.  The code violates this:
`reshape_data` passes the pre-truncation row counts to `match_cols`, so
for a valid 2×2 baseline against a 3×3 comparison the copy loop tries to
broadcast 2-row columns into a 3-row target and raises, producing no
reconciled pair at all. -/
theorem reshape_data_stale_shape_failure :
    IsRect [[1, 1], [1, 1]] 2 2
    ∧ IsRect [[2, 2, 2], [2, 2, 2], [2, 2, 2]] 3 3
    ∧ reshape_data [[1, 1], [1, 1]] [[2, 2, 2], [2, 2, 2], [2, 2, 2]]
        zeroNoise zeroNoise zeroNoise = Except.error "could not broadcast" :=
  ⟨by decide, by decide, by rfl⟩

/-- C2 counterexample: reconciling the already-equal-shaped pair
`([[1],[2]], [[1],[2]])` (both 2×1) does not return the pair unchanged —
the one-column path rebuilds both arrays with 5 columns. -/
theorem reshape_data_one_col_pair_changed :
    reshape_data [[1], [2]] [[1], [2]] zeroNoise zeroNoise zeroNoise ≠
      Except.ok ([[1], [2]], [[1], [2]]) := by
  intro h
  rw [show reshape_data [[1], [2]] [[1], [2]] zeroNoise zeroNoise zeroNoise =
      Except.ok ([[1, 0, 0, 0, 0], [2, 0, 0, 0, 0]],
        [[1, 0, 0, 0, 0], [2, 0, 0, 0, 0]]) from rfl] at h
  simp at h

/-- C2 (amended): reconciling two ensembles that already have equal row
counts and equal column counts returns both unchanged — provided the
shared column count is not 1; a one-column pair is instead routed
through the fixed-width 5-column synthesis path. -/
theorem reconcile_equal_shapes_unchanged (pre post : Mat)
    (nC nP nQ : Nat → Nat → ℚ)
    (h1 : nRows pre = nRows post) (h2 : nCols pre = nCols post)
    (h3 : nCols pre ≠ 1) :
    reshape_data pre post nC nP nQ = Except.ok (pre, post) :=
  reshape_data_noop pre post nC nP nQ h1 h2 h3

/-- Witness for the amended C2 at a concrete equal-shape 2×2 pair. -/
theorem reconcile_equal_shapes_unchanged_witness :
    reshape_data [[1, 2], [3, 4]] [[5, 6], [7, 8]]
      zeroNoise zeroNoise zeroNoise =
      Except.ok ([[1, 2], [3, 4]], [[5, 6], [7, 8]]) :=
  reconcile_equal_shapes_unchanged [[1, 2], [3, 4]] [[5, 6], [7, 8]]
    zeroNoise zeroNoise zeroNoise (by decide) (by decide) (by decide)

/-- C3: artifact correction computes the scalar mean of the first `k`
samples over all rows and columns of each ensemble; when the comparison
head-window mean exceeds the baseline head-window mean the scalar
difference is subtracted from every comparison value, making the two
head-window means exactly equal afterwards; otherwise the comparison
ensemble is returned unchanged, and the baseline always is. -/
theorem artefact_correction_head_window (pre post : Mat) (R C k : Nat)
    (hpre : IsRect pre R C) (hpost : IsRect post R C)
    (hk : 1 ≤ k) (hkR : k ≤ R) (hC : 1 ≤ C) :
    (remove_spm_significance_from_filter_artefact pre post k).1 = pre
    ∧ headMean pre k = scalarHeadMean pre k
    ∧ headMean post k = scalarHeadMean post k
    ∧ (headMean pre k < headMean post k →
        (remove_spm_significance_from_filter_artefact pre post k).2 =
          subScalar post (headMean post k - headMean pre k)
        ∧ headMean (remove_spm_significance_from_filter_artefact pre post k).2 k
            = headMean pre k)
    ∧ (headMean post k ≤ headMean pre k →
        (remove_spm_significance_from_filter_artefact pre post k).2 = post) := by
  refine ⟨?_, headMean_eq_scalarHeadMean pre R C k hpre hk hkR hC,
    headMean_eq_scalarHeadMean post R C k hpost hk hkR hC, ?_, ?_⟩
  · show (if headMean pre k < headMean post k then
        (pre, subScalar post (headMean post k - headMean pre k))
      else (pre, post)).1 = pre
    by_cases h : headMean pre k < headMean post k
    · rw [if_pos h]
    · rw [if_neg h]
  · intro h
    have hsub : (remove_spm_significance_from_filter_artefact pre post k).2 =
        subScalar post (headMean post k - headMean pre k) := by
      show (if headMean pre k < headMean post k then
          (pre, subScalar post (headMean post k - headMean pre k))
        else (pre, post)).2 = _
      rw [if_pos h]
    refine ⟨hsub, ?_⟩
    rw [hsub, headMean_subScalar post _ R C k hpost hk hkR hC]
    ring
  · intro h
    show (if headMean pre k < headMean post k then
        (pre, subScalar post (headMean post k - headMean pre k))
      else (pre, post)).2 = post
    rw [if_neg (not_lt.mpr h)]

/-- Witness for C3 on a 3×1 pair with comparison mean above baseline. -/
theorem artefact_correction_head_window_witness :
    (remove_spm_significance_from_filter_artefact
        [[0], [0], [0]] [[1], [1], [1]] 3).1 = [[0], [0], [0]]
    ∧ headMean [[0], [0], [0]] 3 = scalarHeadMean [[0], [0], [0]] 3
    ∧ headMean [[1], [1], [1]] 3 = scalarHeadMean [[1], [1], [1]] 3
    ∧ (headMean [[0], [0], [0]] 3 < headMean [[1], [1], [1]] 3 →
        (remove_spm_significance_from_filter_artefact
            [[0], [0], [0]] [[1], [1], [1]] 3).2 =
          subScalar [[1], [1], [1]]
            (headMean [[1], [1], [1]] 3 - headMean [[0], [0], [0]] 3)
        ∧ headMean (remove_spm_significance_from_filter_artefact
            [[0], [0], [0]] [[1], [1], [1]] 3).2 3 = headMean [[0], [0], [0]] 3)
    ∧ (headMean [[1], [1], [1]] 3 ≤ headMean [[0], [0], [0]] 3 →
        (remove_spm_significance_from_filter_artefact
            [[0], [0], [0]] [[1], [1], [1]] 3).2 = [[1], [1], [1]]) :=
  artefact_correction_head_window [[0], [0], [0]] [[1], [1], [1]] 3 1 3
    (by decide) (by decide) (by decide) (by decide) (by decide)

/-- C4: when the inference step reports zero supra-threshold clusters
(either a `None` report or an empty cluster list), the cluster
parameterizer returns an empty result — `None` or an empty parameter
table, never an error — containing zero cluster-parameter records, an
outcome callers can distinguish from a failure (which surfaces as an
exception from the statistics call, not as a value). -/
theorem zero_clusters_empty_result (ti : TI) (time_offset : ℚ)
    (h : countClusters ti.clusters = 0) :
    (get_ti_parameters_as_df ti time_offset = none ∨
      get_ti_parameters_as_df ti time_offset = some [])
    ∧ countRecords (get_ti_parameters_as_df ti time_offset) = 0 := by
  rcases ti with ⟨a, z, cl⟩
  cases cl with
  | none => exact ⟨Or.inl rfl, rfl⟩
  | some cs =>
    have hlen : cs.length = 0 := by simpa [countClusters] using h
    have : cs = [] := List.length_eq_zero.mp hlen
    subst this
    exact ⟨Or.inr rfl, rfl⟩

/-- Witness for C4 on an empty cluster list with `alpha = 0.01`,
`zstar = 3`. -/
theorem zero_clusters_empty_result_witness :
    (get_ti_parameters_as_df ⟨1/100, 3, some []⟩ 1 = none ∨
      get_ti_parameters_as_df ⟨1/100, 3, some []⟩ 1 = some [])
    ∧ countRecords (get_ti_parameters_as_df ⟨1/100, 3, some []⟩ 1) = 0 :=
  zero_clusters_empty_result ⟨1/100, 3, some []⟩ 1 rfl

/-- C5: if the delegated statistical-inference call raises, the engine
returns `(None, None)` — no continuum and no inference object (hence no
threshold and no cluster set) reach the caller — and reports the failure
in a message naming the offending condition. -/
theorem inference_failure_no_partial_results
    (delegated : Except String (Continuum × TI)) (e : String)
    (h : delegated = Except.error e) :
    (get_spm_t_ti_paired_ttest delegated).1 = (none, none)
    ∧ (get_spm_t_ti_paired_ttest delegated).2 =
        ["Error performing SPM analysis: " ++ e] := by
  subst h
  exact ⟨rfl, rfl⟩

/-- Witness for C5 on a concrete zero-variance failure. -/
theorem inference_failure_no_partial_results_witness :
    (get_spm_t_ti_paired_ttest
        (Except.error "zero variance in paired differences")).1 = (none, none)
    ∧ (get_spm_t_ti_paired_ttest
        (Except.error "zero variance in paired differences")).2 =
      ["Error performing SPM analysis: " ++
        "zero variance in paired differences"] :=
  inference_failure_no_partial_results
    (Except.error "zero variance in paired differences")
    "zero variance in paired differences" rfl

/-- C6: `area_above_axis` is exactly the trapezoidal-rule sum
`∑ |0.5·(v[k]+v[k-1])|·(t[k]−t[k-1])`, `area_above_threshold` is that
area minus `threshold·(t[N-1]−t[0])`, and consequently a constant
cluster of value `v ≥ threshold ≥ 0` over time `[0, T]` has
`area_above_axis = v·T` and `area_above_threshold = (v−threshold)·T`. -/
theorem cluster_areas_trapezoid :
    (∀ ts zs : List ℚ,
      areaAboveX ts zs = ∑ k ∈ Finset.range (ts.length - 1),
        |(1/2 : ℚ) * (zs.getD (k+1) 0 + zs.getD k 0)| *
          (ts.getD (k+1) 0 - ts.getD k 0))
    ∧ (∀ (ts zs : List ℚ) (threshold : ℚ),
      areaAboveThreshold ts zs threshold =
        areaAboveX ts zs -
          threshold * (ts.getD (ts.length - 1) 0 - ts.getD 0 0))
    ∧ (∀ (N : Nat) (ts : List ℚ) (v threshold T : ℚ),
      ts.length = N → 1 ≤ N → ts.getD 0 0 = 0 → ts.getD (N-1) 0 = T →
      0 ≤ threshold → threshold ≤ v →
      areaAboveX ts (List.replicate N v) = v * T
      ∧ areaAboveThreshold ts (List.replicate N v) threshold =
          (v - threshold) * T) := by
  refine ⟨areaAboveX_eq_sum, fun ts zs threshold => rfl, ?_⟩
  intro N ts v threshold T hN h1 h0 hT hth hthv
  have h0v : (0 : ℚ) ≤ v := le_trans hth hthv
  have hA : areaAboveX ts (List.replicate N v) = v * T := by
    rw [areaAboveX_eq_sum, hN]
    have hterm : ∀ k ∈ Finset.range (N - 1),
        |(1/2 : ℚ) * ((List.replicate N v).getD (k+1) 0 +
            (List.replicate N v).getD k 0)| *
          (ts.getD (k+1) 0 - ts.getD k 0) =
        v * (ts.getD (k+1) 0 - ts.getD k 0) := by
      intro k hk
      have hkN : k < N - 1 := Finset.mem_range.mp hk
      rw [getD_replicate_lt N (k+1) v (by omega),
        getD_replicate_lt N k v (by omega)]
      have habs : |(1/2 : ℚ) * (v + v)| = v := by
        rw [abs_of_nonneg (by linarith)]
        ring
      rw [habs]
    rw [Finset.sum_congr rfl hterm, ← Finset.mul_sum,
      Finset.sum_range_sub (fun k => ts.getD k 0) (N - 1)]
    show v * (ts.getD (N-1) 0 - ts.getD 0 0) = v * T
    rw [hT, h0, sub_zero]
  refine ⟨hA, ?_⟩
  show areaAboveX ts (List.replicate N v) -
      threshold * (ts.getD (ts.length - 1) 0 - ts.getD 0 0) = _
  rw [hA, hN, hT, h0]
  ring

/-- Witness for C6: a constant cluster of value 2 over `[0, 2]` with
threshold 1. -/
theorem cluster_areas_trapezoid_witness :
    areaAboveX [0, 1, 2] (List.replicate 3 2) = 2 * 2
    ∧ areaAboveThreshold [0, 1, 2] (List.replicate 3 2) 1 = (2 - 1) * 2 :=
  cluster_areas_trapezoid.2.2 3 [0, 1, 2] 2 1 2 rfl (by decide) rfl rfl
    (by decide) (by decide)

/-- C7: when column synthesis widens a narrower ensemble (with more than
one column) to the wider ensemble's column count, the wide ensemble is
untouched, the narrow ensemble's original columns are preserved verbatim
in their positions, and every synthesized value lies within
`mean ± 0.1·|mean|` of its row's pre-synthesis mean, for any draw of the
random perturbation.  Stated for both directions (comparison narrower,
then baseline narrower). -/
theorem column_synthesis_bound :
    (∀ (R c C : Nat) (pre post : Mat) (noise nP nQ : Nat → Nat → ℚ),
      IsRect pre R C → IsRect post R c → 1 ≤ R → 1 < c → c < C →
      (∀ j i, i < R → |noise j i| ≤ |listMean (post.getD i [])|) →
      ∃ w, reshape_data pre post noise nP nQ = Except.ok (pre, w)
        ∧ IsRect w R C
        ∧ (∀ i j, i < R → j < c → entry w i j = entry post i j)
        ∧ (∀ i j, i < R → c ≤ j → j < C →
            |entry w i j - listMean (post.getD i [])| ≤
              (1/10) * |listMean (post.getD i [])|))
    ∧ (∀ (R c C : Nat) (pre post : Mat) (noise nP nQ : Nat → Nat → ℚ),
      IsRect pre R c → IsRect post R C → 1 ≤ R → 1 < c → c < C →
      (∀ j i, i < R → |noise j i| ≤ |listMean (pre.getD i [])|) →
      ∃ w, reshape_data pre post noise nP nQ = Except.ok (w, post)
        ∧ IsRect w R C
        ∧ (∀ i j, i < R → j < c → entry w i j = entry pre i j)
        ∧ (∀ i j, i < R → c ≤ j → j < C →
            |entry w i j - listMean (pre.getD i [])| ≤
              (1/10) * |listMean (pre.getD i [])|)) := by
  constructor
  · intro R c C pre post noise nP nQ hpre hpost hR hc hcC hnoise
    have hncp : nCols pre = C := nCols_of_rect pre R C hpre hR
    have hncq : nCols post = c := nCols_of_rect post R c hpost hR
    have hrows : nRows pre = nRows post := hpre.1.trans hpost.1.symm
    obtain ⟨w, hmc, hrect, hcopy, hsynth⟩ :=
      match_cols_widen_post pre post R c C noise hpre hpost hR hcC
    refine ⟨w, ?_, hrect, hcopy, ?_⟩
    · rw [reshape_data_to_match_cols pre post noise nP nQ hrows
          (by rw [hncp, hncq]; omega)
          (by rw [hncp, hncq]; rintro ⟨e1, _⟩; omega),
        show nRows pre = R from hpre.1, hncp,
        show nRows post = R from hpost.1, hncq, hmc]
    · intro i j hi hjc hjC
      rw [hsynth i j hi hjc hjC]
      have hd : listMean (post.getD i []) + (1/10) * noise j i -
          listMean (post.getD i []) = (1/10) * noise j i := by ring
      rw [hd, abs_mul, abs_of_nonneg (by norm_num : (0:ℚ) ≤ 1/10)]
      exact mul_le_mul_of_nonneg_left (hnoise j i hi) (by norm_num)
  · intro R c C pre post noise nP nQ hpre hpost hR hc hcC hnoise
    have hncp : nCols pre = c := nCols_of_rect pre R c hpre hR
    have hncq : nCols post = C := nCols_of_rect post R C hpost hR
    have hrows : nRows pre = nRows post := hpre.1.trans hpost.1.symm
    obtain ⟨w, hmc, hrect, hcopy, hsynth⟩ :=
      match_cols_widen_pre pre post R c C noise hpre hpost hR hcC
    refine ⟨w, ?_, hrect, hcopy, ?_⟩
    · rw [reshape_data_to_match_cols pre post noise nP nQ hrows
          (by rw [hncp, hncq]; omega)
          (by rw [hncp, hncq]; rintro ⟨_, e2⟩; omega),
        show nRows pre = R from hpre.1, hncp,
        show nRows post = R from hpost.1, hncq, hmc]
    · intro i j hi hjc hjC
      rw [hsynth i j hi hjc hjC]
      have hd : listMean (pre.getD i []) + (1/10) * noise j i -
          listMean (pre.getD i []) = (1/10) * noise j i := by ring
      rw [hd, abs_mul, abs_of_nonneg (by norm_num : (0:ℚ) ≤ 1/10)]
      exact mul_le_mul_of_nonneg_left (hnoise j i hi) (by norm_num)

/-- Witness for C7: a 1×3 baseline against a 1×2 comparison with the
zero noise draw. -/
theorem column_synthesis_bound_witness :
    ∃ w, reshape_data [[1, 2, 3]] [[4, 6]] zeroNoise zeroNoise zeroNoise =
        Except.ok ([[1, 2, 3]], w)
      ∧ IsRect w 1 3
      ∧ (∀ i j, i < 1 → j < 2 → entry w i j = entry [[4, 6]] i j)
      ∧ (∀ i j, i < 1 → 2 ≤ j → j < 3 →
          |entry w i j - listMean (List.getD [[4, 6]] i [])| ≤
            (1/10) * |listMean (List.getD [[4, 6]] i [])|) :=
  column_synthesis_bound.1 1 2 3 [[1, 2, 3]] [[4, 6]]
    zeroNoise zeroNoise zeroNoise (by decide) (by decide) (by decide)
    (by decide) (by decide)
    (fun j i _ => by simpa [zeroNoise] using abs_nonneg _)

/-- C8: when both ensembles have exactly one column (so the narrower
side has one column before and after synthesis is requested),
reconciliation takes the fixed-width `increase_cols` path and returns
ensembles with exactly 5 columns instead of matching the other
ensemble's column count. -/
theorem one_column_fixed_width (pre post : Mat) (R : Nat)
    (nC nP nQ : Nat → Nat → ℚ)
    (hpre : IsRect pre R 1) (hpost : IsRect post R 1) (hR : 1 ≤ R) :
    ∃ p q, reshape_data pre post nC nP nQ = Except.ok (p, q)
      ∧ nCols p = 5 ∧ nCols q = 5 ∧ nRows p = R ∧ nRows q = R := by
  have h2 : nCols pre = 1 := nCols_of_rect pre R 1 hpre hR
  have h3 : nCols post = 1 := nCols_of_rect post R 1 hpost hR
  have hrows : nRows pre = nRows post := hpre.1.trans hpost.1.symm
  obtain ⟨p, q, hinc, hprect, hqrect, _, _⟩ :=
    increase_cols_one_one pre post R nP nQ hpre hpost hR
  refine ⟨p, q, ?_, nCols_of_rect p R 5 hprect hR,
    nCols_of_rect q R 5 hqrect hR, hprect.1, hqrect.1⟩
  rw [reshape_data_to_increase_cols pre post nC nP nQ hrows h2 h3,
    show nRows pre = R from hpre.1, show nRows post = R from hpost.1, hinc]

/-- Witness for C8 on a concrete 2×1 pair. -/
theorem one_column_fixed_width_witness :
    ∃ p q, reshape_data [[1], [2]] [[3], [4]] zeroNoise zeroNoise zeroNoise =
        Except.ok (p, q)
      ∧ nCols p = 5 ∧ nCols q = 5 ∧ nRows p = 2 ∧ nRows q = 2 :=
  one_column_fixed_width [[1], [2]] [[3], [4]] 2 zeroNoise zeroNoise zeroNoise
    (by decide) (by decide) (by decide)

/-- C9 counterexample: cluster parameterization modifies the cluster
object it is given — with the default `time_offset = 1`
(`constants.TMG_ROWS_TO_SKIP_FOR_SPM`), the in-place
`cluster_time += time_offset` shifts the stored time subsequence
`_X`, so the cluster differs before and after the call. -/
theorem cluster_param_mutates_cluster :
    (get_params_of_spm_cluster
        ⟨(0, 1), [0, 1], [5, 5], (1/2, 5), 1/100⟩ (5/100) 3 1).2 ≠
      ⟨(0, 1), [0, 1], [5, 5], (1/2, 5), 1/100⟩ := by
  intro h
  have hx := congrArg Cluster.X h
  simp only [get_params_of_spm_cluster, List.map] at hx
  norm_num at hx

/-- C9 (amended): parameterization leaves every field of the cluster
except the stored time subsequence unchanged, shifting `_X` in place by
exactly `time_offset` (so the cluster is unmodified precisely when the
offset is zero), and artifact correction never modifies the baseline
ensemble. -/
theorem cluster_param_state_characterization :
    (∀ (c : Cluster) (alpha threshold time_offset : ℚ),
      (get_params_of_spm_cluster c alpha threshold time_offset).2 =
        { c with X := c.X.map (fun t => t + time_offset) }
      ∧ (time_offset = 0 →
          (get_params_of_spm_cluster c alpha threshold time_offset).2 = c))
    ∧ (∀ pre post : Mat, (fix_false_spm_significance pre post).1 = pre) := by
  constructor
  · intro c alpha threshold time_offset
    refine ⟨rfl, fun ht => ?_⟩
    subst ht
    show { c with X := c.X.map (fun t => t + 0) } = c
    simp
  · intro pre post
    show (if headMeanRows pre START_ROWS_TO_AVERAGE <
        headMeanRows post START_ROWS_TO_AVERAGE then
        (pre, subScalar post (headMeanRows post START_ROWS_TO_AVERAGE -
          headMeanRows pre START_ROWS_TO_AVERAGE))
      else (pre, post)).1 = pre
    by_cases h : headMeanRows pre START_ROWS_TO_AVERAGE <
        headMeanRows post START_ROWS_TO_AVERAGE
    · rw [if_pos h]
    · rw [if_neg h]

/-- Witness for the amended C9: with offset 0 a concrete cluster is
returned unchanged. -/
theorem cluster_param_state_characterization_witness :
    (get_params_of_spm_cluster
        ⟨(0, 2), [0, 2], [3, 3], (1, 3), 1/50⟩ 1 2 0).2 =
      ⟨(0, 2), [0, 2], [3, 3], (1, 3), 1/50⟩ :=
  (cluster_param_state_characterization.1
    ⟨(0, 2), [0, 2], [3, 3], (1, 3), 1/50⟩ 1 2 0).2 rfl

/-- C10: when both inputs have exactly one column, the 5-column path
fills column 0 of each output with the original data and leaves columns
1–4 identically zero, because the synthesis loop over
`range(pre_cols, post_cols) = range(1, 1)` is empty. -/
theorem one_column_zero_fill (pre post : Mat) (R : Nat)
    (nC nP nQ : Nat → Nat → ℚ)
    (hpre : IsRect pre R 1) (hpost : IsRect post R 1) (hR : 1 ≤ R) :
    ∃ p q, reshape_data pre post nC nP nQ = Except.ok (p, q)
      ∧ (∀ i, i < R → entry p i 0 = entry pre i 0 ∧ entry q i 0 = entry post i 0)
      ∧ (∀ i j, i < R → 1 ≤ j → j < 5 → entry p i j = 0 ∧ entry q i j = 0) := by
  have h2 : nCols pre = 1 := nCols_of_rect pre R 1 hpre hR
  have h3 : nCols post = 1 := nCols_of_rect post R 1 hpost hR
  have hrows : nRows pre = nRows post := hpre.1.trans hpost.1.symm
  obtain ⟨p, q, hinc, _, _, hcopy, hzero⟩ :=
    increase_cols_one_one pre post R nP nQ hpre hpost hR
  refine ⟨p, q, ?_, hcopy, hzero⟩
  rw [reshape_data_to_increase_cols pre post nC nP nQ hrows h2 h3,
    show nRows pre = R from hpre.1, show nRows post = R from hpost.1, hinc]

/-- Witness for C10 on a concrete 2×1 pair. -/
theorem one_column_zero_fill_witness :
    ∃ p q, reshape_data [[5], [6]] [[7], [8]] zeroNoise zeroNoise zeroNoise =
        Except.ok (p, q)
      ∧ (∀ i, i < 2 → entry p i 0 = entry [[5], [6]] i 0
          ∧ entry q i 0 = entry [[7], [8]] i 0)
      ∧ (∀ i j, i < 2 → 1 ≤ j → j < 5 → entry p i j = 0 ∧ entry q i j = 0) :=
  one_column_zero_fill [[5], [6]] [[7], [8]] 2 zeroNoise zeroNoise zeroNoise
    (by decide) (by decide) (by decide)

end Claims

end SpmPotentiation
